import Mathlib

/-!
Verification of the puc-chess game-tree search core (src/main.go) against its
natural-language specification.

The Go program is shallowly embedded: the chess library (github.com/notnil/chess)
is abstracted as a capability record of the operations the core consumes
(legal-move enumeration, move application, and the square map of the board),
exactly as the specification describes the external Game State collaborator.
Everything the core itself does — EvaluateStrongerSide, GameTreeNode,
NewGameTreeNode, CloneGameTreeNode, BuildGameTreeAt, MaxNode, MinNode and
AlphaBeta — is translated from src/main.go.
-/

namespace PucChess

/-! ## Piece model and the evaluator (EvaluateStrongerSide, main.go lines 190-218) -/

/-- Chess piece kinds, as consumed by the switch in EvaluateStrongerSide. -/
inductive PieceType : Type where
  | king
  | queen
  | rook
  | bishop
  | knight
  | pawn
deriving DecidableEq, Repr

/-- The two sides, chess.White and chess.Black. -/
inductive PieceColor : Type where
  | white
  | black
deriving DecidableEq, Repr

/-- A piece as observed by the evaluator: its type and its color. -/
structure Piece : Type where
  ptype : PieceType
  color : PieceColor
deriving DecidableEq, Repr

/-- The per-piece-type weight assigned by the switch statement in
EvaluateStrongerSide (main.go lines 196-209). -/
def pieceStrength : PieceType → Int
  | .king => 900
  | .queen => 90
  | .rook => 50
  | .bishop => 30
  | .knight => 30
  | .pawn => 10

/-- EvaluateStrongerSide (main.go lines 190-218): fold over the entries of the
board square map, adding the piece strength for White pieces and subtracting
it for Black pieces.  The Go code ranges over a map, whose iteration order is
unspecified; the embedding takes the enumeration as a list, and order
independence is proved separately. -/
def EvaluateStrongerSide (sm : List Piece) : Int :=
  sm.foldl
    (fun score piece =>
      if piece.color = PieceColor.white then score + pieceStrength piece.ptype
      else score - pieceStrength piece.ptype)
    0

/-- The signed contribution of a single piece to the score. -/
def signedStrength (p : Piece) : Int :=
  if p.color = PieceColor.white then pieceStrength p.ptype else -pieceStrength p.ptype

/-- Color swap used to state the side-swap antisymmetry property. -/
def swapColor : PieceColor → PieceColor
  | .white => .black
  | .black => .white

/-- Reassign a piece to the other side, keeping its type. -/
def mirrorPiece (p : Piece) : Piece :=
  ⟨p.ptype, swapColor p.color⟩

/-- The piece multiset of the standard chess starting position. -/
def startingPieces : List Piece :=
  List.replicate 8 ⟨.pawn, .white⟩ ++
    [⟨.rook, .white⟩, ⟨.knight, .white⟩, ⟨.bishop, .white⟩, ⟨.queen, .white⟩,
      ⟨.king, .white⟩, ⟨.bishop, .white⟩, ⟨.knight, .white⟩, ⟨.rook, .white⟩] ++
    List.replicate 8 ⟨.pawn, .black⟩ ++
    [⟨.rook, .black⟩, ⟨.knight, .black⟩, ⟨.bishop, .black⟩, ⟨.queen, .black⟩,
      ⟨.king, .black⟩, ⟨.bishop, .black⟩, ⟨.knight, .black⟩, ⟨.rook, .black⟩]

/-! ## The game tree (GameTreeNode, main.go lines 220-245) -/

/-- GameTreeNode (main.go lines 221-225).  The Game field is a pointer in Go
and may be nil (the alpha/beta sentinel nodes leave it nil), hence Option.
The game type is abstract, as the position representation is external. -/
inductive GameTreeNode (G : Type) : Type where
  | mk (game : Option G) (evaluation : Int) (children : List (GameTreeNode G))

/-- The Game field of a node. -/
def GameTreeNode.game {G : Type} : GameTreeNode G → Option G
  | .mk g _ _ => g

/-- The Evaluation field of a node. -/
def GameTreeNode.evaluation {G : Type} : GameTreeNode G → Int
  | .mk _ e _ => e

/-- The Children field of a node. -/
def GameTreeNode.children {G : Type} : GameTreeNode G → List (GameTreeNode G)
  | .mk _ _ cs => cs

/-! ## MaxNode and MinNode (main.go lines 265-293) -/

/-- MaxNode (main.go lines 265-277): nil checks first, then the node with the
strictly greater evaluation; on equal evaluations the else branch returns the
second argument. -/
def MaxNode {G : Type} :
    Option (GameTreeNode G) → Option (GameTreeNode G) → Option (GameTreeNode G)
  | none, node2 => node2
  | some node1, none => some node1
  | some node1, some node2 =>
      if node1.evaluation > node2.evaluation then some node1 else some node2

/-- MinNode (main.go lines 281-293): nil checks first, then the node with the
smaller evaluation; on equal evaluations the else branch returns the first
argument. -/
def MinNode {G : Type} :
    Option (GameTreeNode G) → Option (GameTreeNode G) → Option (GameTreeNode G)
  | none, node2 => node2
  | some node1, none => some node1
  | some node1, some node2 =>
      if node1.evaluation > node2.evaluation then some node2 else some node1

/-! ## AlphaBeta (main.go lines 297-326)

The Go function returns a possibly-nil pointer, embedded as an Option result.
The base-case test depth == 0 || node.Children == nil || len(node.Children) == 0
collapses to a match on the children list (a nil slice and an empty slice are
both the empty list here).  The loop-local sentinel nodes nodeA and nodeB are
threaded exactly as in the source, although the source never reads them after
updating them. -/

mutual

/-- AlphaBeta (main.go lines 297-326). -/
def AlphaBeta {G : Type} (node : GameTreeNode G) (depth a b : Int)
    (maximizingPlayer : Bool) : Option (GameTreeNode G) :=
  match node with
  | .mk g e [] => some (.mk g e [])
  | .mk g e (c :: cs) =>
      if depth = 0 then some (.mk g e (c :: cs))
      else if maximizingPlayer then
        maxLoop (c :: cs) depth a b none (some (.mk none a []))
      else
        minLoop (c :: cs) depth a b none (some (.mk none b []))

/-- The maximizing loop of AlphaBeta (main.go lines 307-315), with the running
best value and the (dead) nodeA accumulator threaded through. -/
def maxLoop {G : Type} (cs : List (GameTreeNode G)) (depth a b : Int)
    (value nodeA : Option (GameTreeNode G)) : Option (GameTreeNode G) :=
  match cs with
  | [] => value
  | c :: rest =>
      match MaxNode value (AlphaBeta c (depth - 1) a b false) with
      | none => maxLoop rest depth a b none (MaxNode nodeA none)
      | some vn =>
          if b ≤ vn.evaluation then some vn
          else maxLoop rest depth a b (some vn) (MaxNode nodeA (some vn))

/-- The minimizing loop of AlphaBeta (main.go lines 317-324), with the running
best value and the (dead) nodeB accumulator threaded through. -/
def minLoop {G : Type} (cs : List (GameTreeNode G)) (depth a b : Int)
    (value nodeB : Option (GameTreeNode G)) : Option (GameTreeNode G) :=
  match cs with
  | [] => value
  | c :: rest =>
      match MinNode value (AlphaBeta c (depth - 1) a b true) with
      | none => minLoop rest depth a b none (MinNode nodeB none)
      | some vn =>
          if vn.evaluation ≤ a then some vn
          else minLoop rest depth a b (some vn) (MinNode nodeB (some vn))

end

/-! ## The external game-state capability and the tree builder
(NewGameTreeNode, CloneGameTreeNode, BuildGameTreeAt, main.go lines 229-261) -/

/-- The Game State capability the core consumes (spec section 6): legal-move
enumeration in a deterministic order, move application on an independent copy,
and the square map of the board, which is all the evaluator reads.  G is the
opaque position type and M the opaque move type. -/
structure ChessAPI (G M : Type) : Type where
  validMoves : G → List M
  move : G → M → G
  squareMap : G → List Piece

/-- Evaluation of a position: EvaluateStrongerSide applied to the entries of
the square map of its board (main.go lines 190-191). -/
def evalGame {G M : Type} (api : ChessAPI G M) (g : G) : Int :=
  EvaluateStrongerSide (api.squareMap g)

/-- NewGameTreeNode (main.go lines 229-234): wrap a game with its static
evaluation; the Children field is left at its zero value (nil). -/
def NewGameTreeNode {G M : Type} (api : ChessAPI G M) (g : G) : GameTreeNode G :=
  .mk (some g) (evalGame api g) []

/-- CloneGameTreeNode (main.go lines 239-245): copy a node, deep-copying the
game so the copy can be mutated independently, while the Evaluation and the
Children slice are copied as values. -/
def CloneGameTreeNode {G : Type} (n : GameTreeNode G) : GameTreeNode G :=
  .mk n.game n.evaluation n.children

/-- The loop of BuildGameTreeAt (main.go lines 252-260), with the root's
partially built children list threaded as the accumulator acc.  Each iteration
clones the root node — so, as in CloneGameTreeNode, the fresh child starts
with the root's current Children slice, which is acc — applies the move to the
cloned game, overwrites the evaluation, and appends the child; when the depth
budget is positive the child is recursively expanded, which replaces its
children.  The second component counts the nodes created, one per
CloneGameTreeNode call, instrumenting the same recursion.  The Go depth is an
int, but depth = 0 and depth < 0 behave identically (the depth > 0 guard
fails), so the depth is taken here as the Nat image of the caller's int. -/
def buildKidsC {G M : Type} (api : ChessAPI G M) (d : Nat) (g : G) (ms : List M)
    (acc : List (GameTreeNode G)) : List (GameTreeNode G) × Nat :=
  match ms with
  | [] => (acc, 0)
  | m :: rest =>
      let g2 := api.move g m
      let sub : List (GameTreeNode G) × Nat :=
        match d with
        | 0 => (acc, 0)
        | d' + 1 => buildKidsC api d' g2 (api.validMoves g2) []
      let res := buildKidsC api d g rest (acc ++ [.mk (some g2) (evalGame api g2) sub.1])
      (res.1, 1 + sub.2 + res.2)
termination_by (d, ms)

/-- BuildGameTreeAt (main.go lines 249-261): reset the node's Children to an
empty slice and run the move loop.  The source dereferences the node's Game
pointer, which is never nil on any call the program makes; the nil case is
modelled as leaving the node unchanged and lies outside every claim. -/
def BuildGameTreeAt {G M : Type} (api : ChessAPI G M) (n : GameTreeNode G)
    (depth : Int) : GameTreeNode G :=
  match n with
  | .mk (some g) e _ =>
      .mk (some g) e (buildKidsC api depth.toNat g (api.validMoves g) []).1
  | .mk none e cs => .mk none e cs

/-- The number of nodes BuildGameTreeAt creates below a node holding game g
when called with depth d: the clone count of the same buildKidsC call that
BuildGameTreeAt makes. -/
def cloneCount {G M : Type} (api : ChessAPI G M) (g : G) (d : Nat) : Nat :=
  (buildKidsC api d g (api.validMoves g) []).2

/-- Modelled from the spec: the total branching factor at ply k below a
position g — the number of legal moves summed over all positions reachable
from g in exactly k moves, enumerated in move-generator order. -/
def plyBranch {G M : Type} (api : ChessAPI G M) : G → Nat → Nat
  | g, 0 => (api.validMoves g).length
  | g, k + 1 => ((api.validMoves g).map (fun m => plyBranch api (api.move g m) k)).sum

/-! ## Spec-side reference definitions and structural predicates -/

mutual

/-- Modelled from the spec: exhaustive minimax without pruning, following the
words of spec section 4.3 and section 8 — at depth 0 or at a childless node the
static evaluation is the value; otherwise the maximum (or minimum) of the
children's values one depth lower.  Used only to state the refinement claim
comparing AlphaBeta with exhaustive minimax. -/
def minimaxValue {G : Type} (node : GameTreeNode G) (depth : Int)
    (maximizing : Bool) : Int :=
  match node with
  | .mk _ e [] => e
  | .mk _ e (c :: rest) =>
      if depth = 0 then e
      else if maximizing then mmMax (minimaxValue c (depth - 1) false) rest depth
      else mmMin (minimaxValue c (depth - 1) true) rest depth

/-- Fold of the maximum of the children's minimax values. -/
def mmMax {G : Type} (acc : Int) (cs : List (GameTreeNode G)) (depth : Int) : Int :=
  match cs with
  | [] => acc
  | c :: rest => mmMax (max acc (minimaxValue c (depth - 1) false)) rest depth

/-- Fold of the minimum of the children's minimax values. -/
def mmMin {G : Type} (acc : Int) (cs : List (GameTreeNode G)) (depth : Int) : Int :=
  match cs with
  | [] => acc
  | c :: rest => mmMin (min acc (minimaxValue c (depth - 1) true)) rest depth

end

/-- Membership of a node in a tree: the root itself or, recursively, a node of
one of its children.  This is the embedding's reading of the Go pointer being
a node of the input tree. -/
inductive IsNodeOf {G : Type} : GameTreeNode G → GameTreeNode G → Prop where
  | refl (n : GameTreeNode G) : IsNodeOf n n
  | child {r c n : GameTreeNode G} :
      c ∈ n.children → IsNodeOf r c → IsNodeOf r n

mutual

/-- Number of nodes of a tree; the measure used for strong induction. -/
def GameTreeNode.size {G : Type} : GameTreeNode G → Nat
  | .mk _ _ cs => GameTreeNode.sizeList cs + 1

/-- Total size of a list of trees. -/
def GameTreeNode.sizeList {G : Type} : List (GameTreeNode G) → Nat
  | [] => 0
  | c :: cs => GameTreeNode.size c + GameTreeNode.sizeList cs

end

mutual

/-- Decidable check that every evaluation in a tree lies strictly between a
and b. -/
def allEvalsIn {G : Type} (a b : Int) : GameTreeNode G → Bool
  | .mk _ e cs => decide (a < e) && decide (e < b) && allEvalsInList a b cs

/-- List version of allEvalsIn. -/
def allEvalsInList {G : Type} (a b : Int) : List (GameTreeNode G) → Bool
  | [] => true
  | c :: cs => allEvalsIn a b c && allEvalsInList a b cs

end

/-! ## Lemmas about the evaluator -/

/-- The evaluator's fold, started anywhere, adds the signed strengths. -/
lemma evalFold (l : List Piece) (s : Int) :
    l.foldl
      (fun score piece =>
        if piece.color = PieceColor.white then score + pieceStrength piece.ptype
        else score - pieceStrength piece.ptype)
      s = s + (l.map signedStrength).sum := by
  induction l generalizing s with
  | nil => simp
  | cons p l ih =>
      simp only [List.foldl_cons, List.map_cons, List.sum_cons, ih, signedStrength]
      by_cases h : p.color = PieceColor.white <;> simp [h] <;> ring

/-- The evaluator is the sum of the signed strengths of the pieces. -/
lemma EvaluateStrongerSide_eq_sum (l : List Piece) :
    EvaluateStrongerSide l = (l.map signedStrength).sum := by
  simpa [EvaluateStrongerSide] using evalFold l 0

/-- Mirroring a piece negates its signed strength. -/
lemma signedStrength_mirror (p : Piece) :
    signedStrength (mirrorPiece p) = -signedStrength p := by
  obtain ⟨t, c⟩ := p
  cases c <;> simp [signedStrength, mirrorPiece, swapColor]

/-- The evaluator only depends on the multiset of pieces: permuting the
enumeration of the square map leaves the score unchanged. -/
lemma EvaluateStrongerSide_perm {l₁ l₂ : List Piece} (h : l₁.Perm l₂) :
    EvaluateStrongerSide l₁ = EvaluateStrongerSide l₂ := by
  rw [EvaluateStrongerSide_eq_sum, EvaluateStrongerSide_eq_sum]
  exact (h.map signedStrength).sum_eq

/-- C5: the evaluator is total (it is a Lean function) and returns the material
balance: for every enumeration of the board's pieces, the score is the sum of
the fixed weights (king 900, queen 90, rook 50, bishop 30, knight 30, pawn 10)
of the White pieces minus the sum of the weights of the Black pieces. -/
theorem evaluator_material_balance (sm : List Piece) :
    EvaluateStrongerSide sm =
      ((sm.filter (fun p => p.color = PieceColor.white)).map
          (fun p => pieceStrength p.ptype)).sum -
        ((sm.filter (fun p => p.color = PieceColor.black)).map
          (fun p => pieceStrength p.ptype)).sum := by
  rw [EvaluateStrongerSide_eq_sum]
  induction sm with
  | nil => simp
  | cons p l ih =>
      obtain ⟨t, c⟩ := p
      cases c <;>
        simp [signedStrength, List.filter_cons, ih] <;> ring

/-- Summing pointwise negations negates the sum. -/
lemma sum_map_negOf {α : Type} (f : α → Int) (l : List α) :
    (l.map (fun x => -f x)).sum = -(l.map f).sum := by
  induction l with
  | nil => simp
  | cons x l ih => simp [ih]; ring

/-- C8: the evaluator is antisymmetric under swapping the sides: reassigning
every piece to the opposite color negates the score; consequently the
materially balanced standard starting position evaluates to 0. -/
theorem evaluator_antisymm :
    (∀ sm : List Piece,
        EvaluateStrongerSide (sm.map mirrorPiece) = -EvaluateStrongerSide sm) ∧
      EvaluateStrongerSide startingPieces = 0 := by
  constructor
  · intro sm
    rw [EvaluateStrongerSide_eq_sum, EvaluateStrongerSide_eq_sum, List.map_map]
    have h : (sm.map (signedStrength ∘ mirrorPiece)) = sm.map (fun p => -signedStrength p) :=
      List.map_congr_left fun p _ => signedStrength_mirror p
    rw [h, sum_map_negOf]
  · decide

/-! ## Lemmas about the game-tree structure -/

@[simp]
lemma GameTreeNode.game_mk {G : Type} (g : Option G) (e : Int)
    (cs : List (GameTreeNode G)) : (GameTreeNode.mk g e cs).game = g := rfl

@[simp]
lemma GameTreeNode.evaluation_mk {G : Type} (g : Option G) (e : Int)
    (cs : List (GameTreeNode G)) : (GameTreeNode.mk g e cs).evaluation = e := rfl

@[simp]
lemma GameTreeNode.children_mk {G : Type} (g : Option G) (e : Int)
    (cs : List (GameTreeNode G)) : (GameTreeNode.mk g e cs).children = cs := rfl

/-- Every tree has at least one node. -/
lemma GameTreeNode.one_le_size {G : Type} (n : GameTreeNode G) : 1 ≤ n.size := by
  obtain ⟨g, e, cs⟩ := n
  simp [GameTreeNode.size]

/-- A member of a list of trees is bounded by the total size of the list. -/
lemma GameTreeNode.size_le_sizeList {G : Type} {c : GameTreeNode G} :
    ∀ {cs : List (GameTreeNode G)}, c ∈ cs → c.size ≤ GameTreeNode.sizeList cs := by
  intro cs
  induction cs with
  | nil => intro h; cases h
  | cons x xs ih =>
      intro h
      rcases List.mem_cons.mp h with h | h
      · subst h
        simp only [GameTreeNode.sizeList]
        omega
      · have := ih h
        simp only [GameTreeNode.sizeList]
        omega

/-- A child is strictly smaller than its parent. -/
lemma GameTreeNode.size_lt_of_mem_children {G : Type} {c n : GameTreeNode G}
    (h : c ∈ n.children) : c.size < n.size := by
  obtain ⟨g, e, cs⟩ := n
  have := GameTreeNode.size_le_sizeList (show c ∈ cs by simpa using h)
  simp only [GameTreeNode.size]
  omega

/-! ## Lemmas about MaxNode and MinNode -/

/-- MaxNode with an absent first argument returns the second. -/
lemma MaxNode_none {G : Type} (x : Option (GameTreeNode G)) : MaxNode none x = x := rfl

/-- MinNode with an absent first argument returns the second. -/
lemma MinNode_none {G : Type} (x : Option (GameTreeNode G)) : MinNode none x = x := rfl

/-- MaxNode of two present nodes is one of them, with the larger evaluation. -/
lemma MaxNode_some_some {G : Type} (x y : GameTreeNode G) :
    ∃ z, MaxNode (some x) (some y) = some z ∧
      z.evaluation = max x.evaluation y.evaluation ∧ (z = x ∨ z = y) := by
  by_cases h : x.evaluation > y.evaluation
  · exact ⟨x, by simp [MaxNode, h], by omega, Or.inl rfl⟩
  · exact ⟨y, by simp [MaxNode, h], by omega, Or.inr rfl⟩

/-- MinNode of two present nodes is one of them, with the smaller evaluation. -/
lemma MinNode_some_some {G : Type} (x y : GameTreeNode G) :
    ∃ z, MinNode (some x) (some y) = some z ∧
      z.evaluation = min x.evaluation y.evaluation ∧ (z = x ∨ z = y) := by
  by_cases h : x.evaluation > y.evaluation
  · exact ⟨y, by simp [MinNode, h], by omega, Or.inr rfl⟩
  · exact ⟨x, by simp [MinNode, h], by omega, Or.inl rfl⟩

/-! ## AlphaBeta always returns a node of the input tree -/

/-- The maximizing loop returns a node of the ambient tree, provided the
running value is one (or the remaining child list is non-empty) and the
recursive calls on the listed children do. -/
lemma maxLoop_mem {G : Type} {n : GameTreeNode G} :
    ∀ cs : List (GameTreeNode G), (∀ c ∈ cs, c ∈ n.children) →
      (∀ c ∈ cs, ∀ (d a b : Int) (m : Bool),
        ∃ r, AlphaBeta c d a b m = some r ∧ IsNodeOf r c) →
      ∀ (d a b : Int) (value nodeA : Option (GameTreeNode G)),
        (∀ v, value = some v → IsNodeOf v n) → (value = none → cs ≠ []) →
        ∃ r, maxLoop cs d a b value nodeA = some r ∧ IsNodeOf r n := by
  intro cs
  induction cs with
  | nil =>
      intro _ _ d a b value nodeA hv hne
      cases value with
      | none => exact absurd rfl (fun h => (hne h) rfl)
      | some v => exact ⟨v, by simp [maxLoop], hv v rfl⟩
  | cons c rest ih =>
      intro hsub hrec d a b value nodeA hv _
      obtain ⟨r2, hr2, hm2⟩ := hrec c (by simp) (d - 1) a b false
      have hm2n : IsNodeOf r2 n := IsNodeOf.child (hsub c (by simp)) hm2
      have hsub' : ∀ x ∈ rest, x ∈ n.children := fun x hx => hsub x (by simp [hx])
      have hrec' : ∀ x ∈ rest, ∀ (d a b : Int) (m : Bool),
          ∃ r, AlphaBeta x d a b m = some r ∧ IsNodeOf r x :=
        fun x hx => hrec x (by simp [hx])
      cases value with
      | none =>
          simp only [maxLoop, hr2, MaxNode]
          by_cases hb : b ≤ r2.evaluation
          · exact ⟨r2, by simp [hb], hm2n⟩
          · have := ih hsub' hrec' d a b (some r2) (MaxNode nodeA (some r2))
              (fun v hveq => by cases hveq; exact hm2n) (by simp)
            simpa [hb] using this
      | some v0 =>
          have hv0 : IsNodeOf v0 n := hv v0 rfl
          obtain ⟨z, hz, _, hzor⟩ := MaxNode_some_some v0 r2
          have hzn : IsNodeOf z n := by
            rcases hzor with h | h
            · exact h ▸ hv0
            · exact h ▸ hm2n
          simp only [maxLoop, hr2, hz]
          by_cases hb : b ≤ z.evaluation
          · exact ⟨z, by simp [hb], hzn⟩
          · have := ih hsub' hrec' d a b (some z) (MaxNode nodeA (some z))
              (fun v hveq => by cases hveq; exact hzn) (by simp)
            simpa [hb] using this

/-- The minimizing loop returns a node of the ambient tree, symmetrically. -/
lemma minLoop_mem {G : Type} {n : GameTreeNode G} :
    ∀ cs : List (GameTreeNode G), (∀ c ∈ cs, c ∈ n.children) →
      (∀ c ∈ cs, ∀ (d a b : Int) (m : Bool),
        ∃ r, AlphaBeta c d a b m = some r ∧ IsNodeOf r c) →
      ∀ (d a b : Int) (value nodeB : Option (GameTreeNode G)),
        (∀ v, value = some v → IsNodeOf v n) → (value = none → cs ≠ []) →
        ∃ r, minLoop cs d a b value nodeB = some r ∧ IsNodeOf r n := by
  intro cs
  induction cs with
  | nil =>
      intro _ _ d a b value nodeB hv hne
      cases value with
      | none => exact absurd rfl (fun h => (hne h) rfl)
      | some v => exact ⟨v, by simp [minLoop], hv v rfl⟩
  | cons c rest ih =>
      intro hsub hrec d a b value nodeB hv _
      obtain ⟨r2, hr2, hm2⟩ := hrec c (by simp) (d - 1) a b true
      have hm2n : IsNodeOf r2 n := IsNodeOf.child (hsub c (by simp)) hm2
      have hsub' : ∀ x ∈ rest, x ∈ n.children := fun x hx => hsub x (by simp [hx])
      have hrec' : ∀ x ∈ rest, ∀ (d a b : Int) (m : Bool),
          ∃ r, AlphaBeta x d a b m = some r ∧ IsNodeOf r x :=
        fun x hx => hrec x (by simp [hx])
      cases value with
      | none =>
          simp only [minLoop, hr2, MinNode]
          by_cases ha : r2.evaluation ≤ a
          · exact ⟨r2, by simp [ha], hm2n⟩
          · have := ih hsub' hrec' d a b (some r2) (MinNode nodeB (some r2))
              (fun v hveq => by cases hveq; exact hm2n) (by simp)
            simpa [ha] using this
      | some v0 =>
          have hv0 : IsNodeOf v0 n := hv v0 rfl
          obtain ⟨z, hz, _, hzor⟩ := MinNode_some_some v0 r2
          have hzn : IsNodeOf z n := by
            rcases hzor with h | h
            · exact h ▸ hv0
            · exact h ▸ hm2n
          simp only [minLoop, hr2, hz]
          by_cases ha : z.evaluation ≤ a
          · exact ⟨z, by simp [ha], hzn⟩
          · have := ih hsub' hrec' d a b (some z) (MinNode nodeB (some z))
              (fun v hveq => by cases hveq; exact hzn) (by simp)
            simpa [ha] using this

/-- Strong-induction core: AlphaBeta always yields a node of the input tree. -/
lemma AlphaBeta_mem_aux {G : Type} :
    ∀ (k : Nat) (n : GameTreeNode G), n.size ≤ k →
      ∀ (d a b : Int) (m : Bool),
        ∃ r, AlphaBeta n d a b m = some r ∧ IsNodeOf r n := by
  intro k
  induction k with
  | zero =>
      intro n hn
      exact absurd (GameTreeNode.one_le_size n) (by omega)
  | succ k ih =>
      intro n hn d a b m
      obtain ⟨g, e, cs⟩ := n
      cases cs with
      | nil => exact ⟨_, by simp [AlphaBeta], IsNodeOf.refl _⟩
      | cons c rest =>
          by_cases hd : d = 0
          · exact ⟨_, by simp [AlphaBeta, hd], IsNodeOf.refl _⟩
          · have hchild : ∀ x ∈ c :: rest, ∀ (d a b : Int) (m : Bool),
                ∃ r, AlphaBeta x d a b m = some r ∧ IsNodeOf r x := by
              intro x hx
              apply ih
              have := GameTreeNode.size_lt_of_mem_children
                (n := GameTreeNode.mk g e (c :: rest)) (by simpa using hx)
              omega
            cases m with
            | true =>
                have := maxLoop_mem (n := GameTreeNode.mk g e (c :: rest))
                  (c :: rest) (by simp) hchild d a b none
                  (some (.mk none a [])) (by simp) (by simp)
                simpa [AlphaBeta, hd] using this
            | false =>
                have := minLoop_mem (n := GameTreeNode.mk g e (c :: rest))
                  (c :: rest) (by simp) hchild d a b none
                  (some (.mk none b [])) (by simp) (by simp)
                simpa [AlphaBeta, hd] using this

/-- C7: for every input node, AlphaBeta returns a node (never nil), and the
returned node is a node of the input tree — the root or a descendant reachable
through Children.  In particular it is never one of the locally constructed
sentinel nodes wrapping the alpha and beta bounds, which are threaded through
the scan but never returned. -/
theorem alphaBeta_returns_tree_node {G : Type} (n : GameTreeNode G)
    (d a b : Int) (m : Bool) :
    ∃ r, AlphaBeta n d a b m = some r ∧ IsNodeOf r n :=
  AlphaBeta_mem_aux n.size n le_rfl d a b m

/-! ## Tie-break policy (C1) and the childless-root base case (C2) -/

/-- Concrete node used in counterexamples: evaluation 7, game tag 1. -/
def tieChildA : GameTreeNode Nat := .mk (some 1) 7 []

/-- Concrete node used in counterexamples: evaluation 7, game tag 2. -/
def tieChildB : GameTreeNode Nat := .mk (some 2) 7 []

/-- Concrete two-child root whose children tie at evaluation 7. -/
def tieRoot : GameTreeNode Nat := .mk (some 0) 0 [tieChildA, tieChildB]

/-- C1 counterexample: on a tree whose two children tie at the optimal
evaluation, AlphaBeta (maximizing, with the caller's seeds) selects the line
through the SECOND child, not the earliest one, because MaxNode returns its
second argument on equal evaluations. -/
theorem tie_break_first_wins_counterexample :
    AlphaBeta tieRoot 5 (-1000000) 1000000 true = some tieChildB ∧
      MaxNode (some tieChildA) (some tieChildB) = some tieChildB ∧
      tieChildB ≠ tieChildA := by
  refine ⟨rfl, rfl, fun h => ?_⟩
  have := congrArg GameTreeNode.game h
  simp [tieChildA, tieChildB] at this

/-- C1 amended: ties are broken asymmetrically — MaxNode keeps the LATER node
(its second argument) on equal evaluations, while MinNode keeps the earlier
one (its first argument); hence at maximizing levels AlphaBeta selects the
line through the last child attaining the optimum among those scanned, and at
minimizing levels through the first. -/
theorem tie_break_policy {G : Type} (n1 n2 : GameTreeNode G)
    (h : n1.evaluation = n2.evaluation) :
    MaxNode (some n1) (some n2) = some n2 ∧
      MinNode (some n1) (some n2) = some n1 := by
  constructor <;> simp [MaxNode, MinNode, h]

/-- C1 amended, witness at a concrete tie. -/
theorem tie_break_policy_witness :
    MaxNode (some tieChildA) (some tieChildB) = some tieChildB ∧
      MinNode (some tieChildA) (some tieChildB) = some tieChildA :=
  tie_break_policy tieChildA tieChildB rfl

/-- Concrete childless root with a present game. -/
def noChildNode : GameTreeNode Nat := .mk (some 0) 5 []

/-- C2 counterexample: on a root with no children, AlphaBeta does NOT signal
"no move available" — it returns the root node itself, a node whose Game is
present, so the caller's EmptySearchResult branch (nil node or nil Game) is
not taken. -/
theorem alphaBeta_empty_root_counterexample :
    AlphaBeta noChildNode 5 (-1000000) 1000000 true = some noChildNode ∧
      AlphaBeta noChildNode 5 (-1000000) 1000000 true ≠ none ∧
      noChildNode.game ≠ none := by
  refine ⟨rfl, ?_, ?_⟩
  · simp [AlphaBeta, noChildNode]
  · simp [noChildNode]

/-- C2 amended: when the root's children sequence is empty AlphaBeta returns
the root node itself (never an empty result), so the caller's
EmptySearchResult branch is not taken for a root whose Game is present. -/
theorem alphaBeta_childless_returns_root {G : Type} (n : GameTreeNode G)
    (d a b : Int) (m : Bool) (h : n.children = []) :
    AlphaBeta n d a b m = some n := by
  obtain ⟨g, e, cs⟩ := n
  simp only [GameTreeNode.children_mk] at h
  subst h
  simp [AlphaBeta]

/-- C2 amended, witness at a concrete childless root. -/
theorem alphaBeta_childless_returns_root_witness :
    AlphaBeta noChildNode 3 (-1000000) 1000000 true = some noChildNode :=
  alphaBeta_childless_returns_root noChildNode 3 (-1000000) 1000000 true rfl

/-! ## AlphaBeta agrees with exhaustive minimax inside the bounds (C4) -/

/-- Unfolding of allEvalsIn at a constructor. -/
lemma allEvalsIn_mk {G : Type} {a b : Int} {g : Option G} {e : Int}
    {cs : List (GameTreeNode G)} :
    allEvalsIn a b (GameTreeNode.mk g e cs) = true ↔
      a < e ∧ e < b ∧ allEvalsInList a b cs = true := by
  simp [allEvalsIn, and_assoc]

/-- A member of a list with in-bounds evaluations has in-bounds evaluations. -/
lemma allEvalsInList_mem {G : Type} {a b : Int} {c : GameTreeNode G} :
    ∀ {cs : List (GameTreeNode G)}, allEvalsInList a b cs = true → c ∈ cs →
      allEvalsIn a b c = true := by
  intro cs
  induction cs with
  | nil => intro _ h; cases h
  | cons x xs ih =>
      intro hall h
      simp only [allEvalsInList, Bool.and_eq_true] at hall
      rcases List.mem_cons.mp h with h | h
      · exact h ▸ hall.1
      · exact ih hall.2 h

/-- Every node of an in-bounds tree has an in-bounds evaluation. -/
lemma allEvalsIn_isNodeOf {G : Type} {a b : Int} {r n : GameTreeNode G}
    (h : IsNodeOf r n) :
    allEvalsIn a b n = true → a < r.evaluation ∧ r.evaluation < b := by
  induction h with
  | refl =>
      intro hall
      obtain ⟨g, e, cs⟩ := r
      have h1 := allEvalsIn_mk.mp hall
      exact ⟨by simpa using h1.1, by simpa using h1.2.1⟩
  | child hc hsub ih =>
      rename_i c m
      intro hall
      apply ih
      obtain ⟨g, e, cs⟩ := m
      exact allEvalsInList_mem (allEvalsIn_mk.mp hall).2.2 (by simpa using hc)

/-- The maximizing loop computes the running maximum of the children's minimax
values when every evaluation in sight stays strictly below the beta bound, so
no cutoff fires. -/
lemma maxLoop_minimax {G : Type} {n : GameTreeNode G} {a b : Int}
    (hall : allEvalsIn a b n = true) :
    ∀ cs : List (GameTreeNode G), (∀ c ∈ cs, c ∈ n.children) →
      (∀ c ∈ cs, ∀ (d : Int) (m : Bool),
        ∃ r, AlphaBeta c d a b m = some r ∧ IsNodeOf r c ∧
          r.evaluation = minimaxValue c d m) →
      ∀ (d : Int) (v : GameTreeNode G) (nodeA : Option (GameTreeNode G)),
        IsNodeOf v n → a < v.evaluation → v.evaluation < b →
        ∃ r, maxLoop cs d a b (some v) nodeA = some r ∧ IsNodeOf r n ∧
          r.evaluation = mmMax v.evaluation cs d := by
  intro cs
  induction cs with
  | nil =>
      intro _ _ d v nodeA hv _ _
      exact ⟨v, by simp [maxLoop], hv, by simp [mmMax]⟩
  | cons c rest ih =>
      intro hsub hrec d v nodeA hv hva hvb
      obtain ⟨r2, hr2, hm2, he2⟩ := hrec c (by simp) (d - 1) false
      have hm2n : IsNodeOf r2 n := IsNodeOf.child (hsub c (by simp)) hm2
      obtain ⟨h2a, h2b⟩ := allEvalsIn_isNodeOf hm2n hall
      obtain ⟨z, hz, hze, hzor⟩ := MaxNode_some_some v r2
      have hzn : IsNodeOf z n := by
        rcases hzor with h | h
        · exact h ▸ hv
        · exact h ▸ hm2n
      have hzb : z.evaluation < b := by omega
      have hza : a < z.evaluation := by omega
      have hnb : ¬ b ≤ z.evaluation := by omega
      obtain ⟨r, hr, hrn, hre⟩ := ih (fun x hx => hsub x (by simp [hx]))
        (fun x hx => hrec x (by simp [hx])) d z (MaxNode nodeA (some z)) hzn hza hzb
      refine ⟨r, ?_, hrn, ?_⟩
      · simp only [maxLoop, hr2, hz, hnb, if_false]
        exact hr
      · rw [hre]
        simp [mmMax, ← he2, hze]

/-- The minimizing loop computes the running minimum of the children's minimax
values when every evaluation in sight stays strictly above the alpha bound. -/
lemma minLoop_minimax {G : Type} {n : GameTreeNode G} {a b : Int}
    (hall : allEvalsIn a b n = true) :
    ∀ cs : List (GameTreeNode G), (∀ c ∈ cs, c ∈ n.children) →
      (∀ c ∈ cs, ∀ (d : Int) (m : Bool),
        ∃ r, AlphaBeta c d a b m = some r ∧ IsNodeOf r c ∧
          r.evaluation = minimaxValue c d m) →
      ∀ (d : Int) (v : GameTreeNode G) (nodeB : Option (GameTreeNode G)),
        IsNodeOf v n → a < v.evaluation → v.evaluation < b →
        ∃ r, minLoop cs d a b (some v) nodeB = some r ∧ IsNodeOf r n ∧
          r.evaluation = mmMin v.evaluation cs d := by
  intro cs
  induction cs with
  | nil =>
      intro _ _ d v nodeB hv _ _
      exact ⟨v, by simp [minLoop], hv, by simp [mmMin]⟩
  | cons c rest ih =>
      intro hsub hrec d v nodeB hv hva hvb
      obtain ⟨r2, hr2, hm2, he2⟩ := hrec c (by simp) (d - 1) true
      have hm2n : IsNodeOf r2 n := IsNodeOf.child (hsub c (by simp)) hm2
      obtain ⟨h2a, h2b⟩ := allEvalsIn_isNodeOf hm2n hall
      obtain ⟨z, hz, hze, hzor⟩ := MinNode_some_some v r2
      have hzn : IsNodeOf z n := by
        rcases hzor with h | h
        · exact h ▸ hv
        · exact h ▸ hm2n
      have hzb : z.evaluation < b := by omega
      have hza : a < z.evaluation := by omega
      have hna : ¬ z.evaluation ≤ a := by omega
      obtain ⟨r, hr, hrn, hre⟩ := ih (fun x hx => hsub x (by simp [hx]))
        (fun x hx => hrec x (by simp [hx])) d z (MinNode nodeB (some z)) hzn hza hzb
      refine ⟨r, ?_, hrn, ?_⟩
      · simp only [minLoop, hr2, hz, hna, if_false]
        exact hr
      · rw [hre]
        simp [mmMin, ← he2, hze]

/-- Strong-induction core: with every evaluation strictly between the bounds,
AlphaBeta returns a tree node whose evaluation is the exhaustive minimax
value. -/
lemma AlphaBeta_minimax_aux {G : Type} {a b : Int} :
    ∀ (k : Nat) (n : GameTreeNode G), n.size ≤ k → allEvalsIn a b n = true →
      ∀ (d : Int) (m : Bool),
        ∃ r, AlphaBeta n d a b m = some r ∧ IsNodeOf r n ∧
          r.evaluation = minimaxValue n d m := by
  intro k
  induction k with
  | zero =>
      intro n hn
      exact absurd (GameTreeNode.one_le_size n) (by omega)
  | succ k ih =>
      intro n hn hall d m
      obtain ⟨g, e, cs⟩ := n
      cases cs with
      | nil => exact ⟨_, by simp [AlphaBeta], IsNodeOf.refl _, by simp [minimaxValue]⟩
      | cons c rest =>
          by_cases hd : d = 0
          · exact ⟨_, by simp [AlphaBeta, hd], IsNodeOf.refl _,
              by simp [minimaxValue, hd]⟩
          · have hlist := (allEvalsIn_mk.mp hall).2.2
            have hchild : ∀ x ∈ c :: rest, ∀ (d : Int) (m : Bool),
                ∃ r, AlphaBeta x d a b m = some r ∧ IsNodeOf r x ∧
                  r.evaluation = minimaxValue x d m := by
              intro x hx
              apply ih
              · have := GameTreeNode.size_lt_of_mem_children
                  (n := GameTreeNode.mk g e (c :: rest)) (by simpa using hx)
                omega
              · exact allEvalsInList_mem hlist hx
            cases m with
            | true =>
                obtain ⟨r1, hr1, hm1, he1⟩ := hchild c (by simp) (d - 1) false
                have hm1n : IsNodeOf r1 (GameTreeNode.mk g e (c :: rest)) :=
                  IsNodeOf.child (by simp) hm1
                obtain ⟨h1a, h1b⟩ := allEvalsIn_isNodeOf hm1n hall
                have hnb : ¬ b ≤ r1.evaluation := by omega
                obtain ⟨r, hr, hrn, hre⟩ := maxLoop_minimax hall rest
                  (fun x hx => by simp [hx])
                  (fun x hx => hchild x (by simp [hx])) d r1
                  (MaxNode (some (GameTreeNode.mk none a [])) (some r1)) hm1n h1a h1b
                refine ⟨r, ?_, hrn, ?_⟩
                · have hstep : AlphaBeta (GameTreeNode.mk g e (c :: rest)) d a b true =
                      maxLoop (c :: rest) d a b none (some (GameTreeNode.mk none a [])) := by
                    simp [AlphaBeta, hd]
                  rw [hstep]
                  simp only [maxLoop, hr1, MaxNode_none, hnb, if_false]
                  exact hr
                · rw [hre]
                  simp [minimaxValue, hd, he1]
            | false =>
                obtain ⟨r1, hr1, hm1, he1⟩ := hchild c (by simp) (d - 1) true
                have hm1n : IsNodeOf r1 (GameTreeNode.mk g e (c :: rest)) :=
                  IsNodeOf.child (by simp) hm1
                obtain ⟨h1a, h1b⟩ := allEvalsIn_isNodeOf hm1n hall
                have hna : ¬ r1.evaluation ≤ a := by omega
                obtain ⟨r, hr, hrn, hre⟩ := minLoop_minimax hall rest
                  (fun x hx => by simp [hx])
                  (fun x hx => hchild x (by simp [hx])) d r1
                  (MinNode (some (GameTreeNode.mk none b [])) (some r1)) hm1n h1a h1b
                refine ⟨r, ?_, hrn, ?_⟩
                · have hstep : AlphaBeta (GameTreeNode.mk g e (c :: rest)) d a b false =
                      minLoop (c :: rest) d a b none (some (GameTreeNode.mk none b [])) := by
                    simp [AlphaBeta, hd]
                  rw [hstep]
                  simp only [minLoop, hr1, MinNode_none, hna, if_false]
                  exact hr
                · rw [hre]
                  simp [minimaxValue, hd, he1]

/-- C4 amended: with the caller's seeds -1000000 and 1000000, AlphaBeta
returns a node whose evaluation equals the exhaustive minimax value of the
same tree, depth and maximizing flag, PROVIDED every evaluation in the tree
lies strictly between the two bounds (which holds for material scores); the
unconditional claim fails once an evaluation reaches the bounds, because a
cutoff can then end the scan early. -/
theorem alphaBeta_equals_minimax {G : Type} (n : GameTreeNode G) (d : Int)
    (m : Bool) (h : allEvalsIn (-1000000) 1000000 n = true) :
    ∃ r, AlphaBeta n d (-1000000) 1000000 m = some r ∧
      r.evaluation = minimaxValue n d m := by
  obtain ⟨r, hr, _, hre⟩ := AlphaBeta_minimax_aux n.size n le_rfl h d m
  exact ⟨r, hr, hre⟩

/-- Concrete leaf with evaluation pinned at the beta seed. -/
def bigChildA : GameTreeNode Nat := .mk (some 1) 1000000 []

/-- Concrete leaf with evaluation beyond the beta seed. -/
def bigChildB : GameTreeNode Nat := .mk (some 2) 2000000 []

/-- Concrete root whose children's evaluations reach the caller's bounds. -/
def bigRoot : GameTreeNode Nat := .mk (some 0) 0 [bigChildA, bigChildB]

/-- C4 counterexample: on a tree with evaluations at and beyond the seeded
bounds, the first child's evaluation 1000000 triggers the beta cutoff, the
second child is never scanned, and AlphaBeta reports 1000000 while exhaustive
minimax reports 2000000. -/
theorem alphaBeta_minimax_counterexample :
    (AlphaBeta bigRoot 5 (-1000000) 1000000 true).map GameTreeNode.evaluation =
        some 1000000 ∧
      minimaxValue bigRoot 5 true = 2000000 ∧ (1000000 : Int) ≠ 2000000 :=
  ⟨rfl, rfl, by decide⟩

/-- Concrete three-node tree with small evaluations. -/
def smallTree : GameTreeNode Nat :=
  .mk (some 0) 1 [.mk (some 1) 2 [], .mk (some 2) 3 []]

/-- C4 amended, witness on a concrete in-bounds tree. -/
theorem alphaBeta_equals_minimax_witness :
    allEvalsIn (-1000000) 1000000 smallTree = true ∧
      ∃ r, AlphaBeta smallTree 5 (-1000000) 1000000 true = some r ∧
        r.evaluation = minimaxValue smallTree 5 true :=
  ⟨rfl, alphaBeta_equals_minimax smallTree 5 true rfl⟩

/-! ## The tree builder: frame (C10), the clone bug (C3), node counts (C6) -/

/-- C10: BuildGameTreeAt only replaces the passed node's children: the node's
own game and evaluation are unchanged (and, the embedding being functional,
nothing upstream of the node can be touched), and a position with zero legal
moves yields an empty children sequence with no error. -/
theorem buildGameTree_frame {G M : Type} (api : ChessAPI G M)
    (n : GameTreeNode G) (d : Int) :
    (BuildGameTreeAt api n d).game = n.game ∧
      (BuildGameTreeAt api n d).evaluation = n.evaluation ∧
      (∀ g, n.game = some g → api.validMoves g = [] →
        (BuildGameTreeAt api n d).children = []) := by
  obtain ⟨go, e, cs⟩ := n
  cases go with
  | none => exact ⟨rfl, rfl, fun g h => by cases h⟩
  | some g =>
      refine ⟨rfl, rfl, fun g2 h hvm => ?_⟩
      simp only [GameTreeNode.game_mk, Option.some.injEq] at h
      subst h
      simp [BuildGameTreeAt, buildKidsC, hvm]

/-- Toy game-state capability with no legal moves anywhere. -/
def noMoveAPI : ChessAPI Nat Nat := ⟨fun _ => [], fun g _ => g, fun _ => []⟩

/-- Concrete node holding a game, used as a builder input. -/
def plainNode : GameTreeNode Nat := .mk (some 42) 3 []

/-- C10 witness at a concrete node and the no-move capability. -/
theorem buildGameTree_frame_witness :
    (BuildGameTreeAt noMoveAPI plainNode 2).children = [] :=
  (buildGameTree_frame noMoveAPI plainNode 2).2.2 42 rfl rfl

/-- Toy game-state capability: two legal moves 0 and 1 from the empty history,
none afterwards; a position is its move history. -/
def twoMoveAPI : ChessAPI (List Nat) Nat :=
  ⟨fun g => if g.length = 0 then [0, 1] else [], fun g m => g ++ [m], fun _ => []⟩

/-- C3 exhibit: BuildGameTreeAt at depth 0 on a position with two legal moves
produces one child per move in order, with the evaluator's score of the
resulting position — but the SECOND child's children list is [first child],
not empty, because CloneGameTreeNode copies the root's partially built
Children slice into the clone that becomes the child. -/
theorem clone_children_bug :
    (BuildGameTreeAt twoMoveAPI (NewGameTreeNode twoMoveAPI []) 0).children =
      [GameTreeNode.mk (some [0]) 0 [],
        GameTreeNode.mk (some [1]) 0 [GameTreeNode.mk (some [0]) 0 []]] := by
  simp [BuildGameTreeAt, NewGameTreeNode, buildKidsC, twoMoveAPI, evalGame,
    EvaluateStrongerSide]

/-- Summing over a list after adding one per element. -/
lemma sum_map_one_add {α : Type} (f : α → Nat) (l : List α) :
    (l.map (fun x => 1 + f x)).sum = l.length + (l.map f).sum := by
  induction l with
  | nil => simp
  | cons x l ih => simp [ih]; omega

/-- A list sum of range sums commutes to a range sum of list sums. -/
lemma listsum_finsetsum_comm {α : Type} (l : List α) (n : Nat) (f : α → Nat → Nat) :
    (l.map (fun x => (Finset.range n).sum (f x))).sum =
      (Finset.range n).sum (fun k => (l.map (fun x => f x k)).sum) := by
  induction l with
  | nil => simp
  | cons x l ih => simp [ih, Finset.sum_add_distrib]

/-- The built children list has one entry per move on top of the accumulator. -/
lemma buildKidsC_fst_length {G M : Type} (api : ChessAPI G M) (d : Nat) (g : G) :
    ∀ (ms : List M) (acc : List (GameTreeNode G)),
      ((buildKidsC api d g ms acc).1).length = acc.length + ms.length := by
  intro ms
  induction ms with
  | nil => intro acc; cases d <;> simp [buildKidsC]
  | cons m rest ih =>
      intro acc
      cases d with
      | zero =>
          simp only [buildKidsC]
          rw [ih]
          simp only [List.length_append, List.length_cons, List.length_nil]
          omega
      | succ d =>
          simp only [buildKidsC]
          rw [ih]
          simp only [List.length_append, List.length_cons, List.length_nil]
          omega

/-- At depth 0 the loop clones exactly one node per move. -/
lemma buildKidsC_snd_zero {G M : Type} (api : ChessAPI G M) (g : G) :
    ∀ (ms : List M) (acc : List (GameTreeNode G)),
      (buildKidsC api 0 g ms acc).2 = ms.length := by
  intro ms
  induction ms with
  | nil => intro acc; simp [buildKidsC]
  | cons m rest ih =>
      intro acc
      simp only [buildKidsC]
      rw [ih]
      simp only [List.length_cons]
      omega

/-- At positive depth the loop clones one node per move plus the clones of the
recursive expansion of each resulting position. -/
lemma buildKidsC_snd_succ {G M : Type} (api : ChessAPI G M) (d : Nat) (g : G) :
    ∀ (ms : List M) (acc : List (GameTreeNode G)),
      (buildKidsC api (d + 1) g ms acc).2 =
        (ms.map (fun m => 1 + cloneCount api (api.move g m) d)).sum := by
  intro ms
  induction ms with
  | nil => intro acc; simp [buildKidsC]
  | cons m rest ih =>
      intro acc
      simp only [buildKidsC]
      rw [ih]
      simp only [List.map_cons, List.sum_cons, cloneCount]

/-- The number of nodes the builder creates is the total branching factor
summed over the expanded plies 0..d. -/
lemma cloneCount_eq_sum_plyBranch {G M : Type} (api : ChessAPI G M) :
    ∀ (d : Nat) (g : G),
      cloneCount api g d = (Finset.range (d + 1)).sum (fun k => plyBranch api g k) := by
  intro d
  induction d with
  | zero =>
      intro g
      rw [cloneCount, buildKidsC_snd_zero, Finset.sum_range_one]
      rfl
  | succ d ih =>
      intro g
      rw [cloneCount, buildKidsC_snd_succ, sum_map_one_add]
      have hmap : (api.validMoves g).map (fun m => cloneCount api (api.move g m) d) =
          (api.validMoves g).map
            (fun m => (Finset.range (d + 1)).sum (fun k => plyBranch api (api.move g m) k)) :=
        List.map_congr_left fun m _ => ih (api.move g m)
      rw [hmap, listsum_finsetsum_comm]
      have hply : ∀ k, ((api.validMoves g).map (fun m => plyBranch api (api.move g m) k)).sum =
          plyBranch api g (k + 1) := fun k => rfl
      conv_rhs => rw [Finset.sum_range_succ']
      simp only [hply]
      have hlen : (api.validMoves g).length = plyBranch api g 0 := rfl
      omega

/-- C6 amended: BuildGameTreeAt with depth budget d gives the root one child
per legal move, and creates in total the sum over plies 0..d of the branching
factors at each ply — every node at ply up to d is expanded one further ply,
so a depth-1 expansion of a 20-move position yields 20 children, each itself
expanded (it does NOT stop at the children). -/
theorem buildGameTree_node_count {G M : Type} (api : ChessAPI G M) (g : G) (d : Nat) :
    (BuildGameTreeAt api (NewGameTreeNode api g) (d : Int)).children.length =
        (api.validMoves g).length ∧
      cloneCount api g d = (Finset.range (d + 1)).sum (fun k => plyBranch api g k) := by
  constructor
  · simp [BuildGameTreeAt, NewGameTreeNode, buildKidsC_fst_length]
  · exact cloneCount_eq_sum_plyBranch api d g

/-- Toy game-state capability: a single legal move while the history is short,
so that a depth-1 expansion produces a grandchild. -/
def chainAPI : ChessAPI (List Nat) Nat :=
  ⟨fun g => if g.length ≤ 1 then [0] else [], fun g m => g ++ [m], fun _ => []⟩

/-- C6 counterexample: a depth-1 expansion does NOT stop at the root's
children — the child produced for the root's single move is itself expanded
one further ply and has one child of its own (a ply-2 descendant). -/
theorem depth_one_expansion_counterexample :
    ((BuildGameTreeAt chainAPI (NewGameTreeNode chainAPI []) 1).children.map
        (fun c => c.children.length)) = [1] := by
  simp [BuildGameTreeAt, NewGameTreeNode, buildKidsC, chainAPI, evalGame,
    EvaluateStrongerSide]

/-! ## Determinism of the decision pipeline (C9) -/

/-- The builder only consumes the square map through the evaluator, so two
capabilities agreeing on moves and on the evaluation of every position build
identical trees. -/
lemma buildKidsC_congr {G M : Type} (api1 api2 : ChessAPI G M)
    (hvm : api1.validMoves = api2.validMoves) (hmv : api1.move = api2.move)
    (hev : ∀ x, evalGame api1 x = evalGame api2 x) :
    ∀ (d : Nat) (g : G) (ms : List M) (acc : List (GameTreeNode G)),
      buildKidsC api1 d g ms acc = buildKidsC api2 d g ms acc := by
  intro d
  induction d with
  | zero =>
      intro g ms
      induction ms with
      | nil => intro acc; simp [buildKidsC]
      | cons m rest ih =>
          intro acc
          simp only [buildKidsC, hmv, hev]
          rw [ih]
  | succ d ihd =>
      intro g ms
      induction ms with
      | nil => intro acc; simp [buildKidsC]
      | cons m rest ih =>
          intro acc
          simp only [buildKidsC, hmv, hvm, hev]
          rw [ihd, ih]

/-- C9: the decision pipeline is deterministic and, in particular, independent
of the iteration order of the board's square map: if two runs see the square
maps of every position in enumeration orders that are permutations of each
other (everything else equal), building the tree and running AlphaBeta with
the same depths, bounds and maximizing flag yields identical results, hence
the identical chosen move. -/
theorem pipeline_deterministic {G M : Type} (vm : G → List M) (mv : G → M → G)
    (sm1 sm2 : G → List Piece) (hperm : ∀ x, (sm1 x).Perm (sm2 x)) (g : G)
    (buildDepth depth a b : Int) (maxi : Bool) :
    AlphaBeta (BuildGameTreeAt ⟨vm, mv, sm1⟩ (NewGameTreeNode ⟨vm, mv, sm1⟩ g) buildDepth)
        depth a b maxi =
      AlphaBeta (BuildGameTreeAt ⟨vm, mv, sm2⟩ (NewGameTreeNode ⟨vm, mv, sm2⟩ g) buildDepth)
        depth a b maxi := by
  have hev : ∀ x, evalGame ⟨vm, mv, sm1⟩ x = evalGame ⟨vm, mv, sm2⟩ x :=
    fun x => EvaluateStrongerSide_perm (hperm x)
  have htree : BuildGameTreeAt ⟨vm, mv, sm1⟩ (NewGameTreeNode ⟨vm, mv, sm1⟩ g) buildDepth =
      BuildGameTreeAt ⟨vm, mv, sm2⟩ (NewGameTreeNode ⟨vm, mv, sm2⟩ g) buildDepth := by
    simp only [NewGameTreeNode, BuildGameTreeAt]
    rw [hev g, buildKidsC_congr ⟨vm, mv, sm1⟩ ⟨vm, mv, sm2⟩ rfl rfl hev]
  rw [htree]

/-- Toy capability whose square map lists the king first. -/
def permAPI1 : ChessAPI Unit Unit :=
  ⟨fun _ => [], fun x _ => x, fun _ => [⟨.king, .white⟩, ⟨.pawn, .black⟩]⟩

/-- Toy capability whose square map lists the pawn first. -/
def permAPI2 : ChessAPI Unit Unit :=
  ⟨fun _ => [], fun x _ => x, fun _ => [⟨.pawn, .black⟩, ⟨.king, .white⟩]⟩

/-- C9 witness: two permuted square-map enumerations give the same pipeline
result. -/
theorem pipeline_deterministic_witness :
    (∀ x : Unit, (permAPI1.squareMap x).Perm (permAPI2.squareMap x)) ∧
      AlphaBeta (BuildGameTreeAt permAPI1 (NewGameTreeNode permAPI1 ()) 1)
          5 (-1000000) 1000000 true =
        AlphaBeta (BuildGameTreeAt permAPI2 (NewGameTreeNode permAPI2 ()) 1)
          5 (-1000000) 1000000 true :=
  have hp : ([⟨.king, .white⟩, ⟨.pawn, .black⟩] : List Piece).Perm
      [⟨.pawn, .black⟩, ⟨.king, .white⟩] := by decide
  ⟨fun _ => hp,
    pipeline_deterministic (fun _ => []) (fun x _ => x)
      (fun _ => [⟨.king, .white⟩, ⟨.pawn, .black⟩])
      (fun _ => [⟨.pawn, .black⟩, ⟨.king, .white⟩])
      (fun _ => hp) () 1 5 (-1000000) 1000000 true⟩

end PucChess
